import Mathlib

/-!
Verification of the quickserve in-memory user store (src/main.go).

The Go code keeps a map from int ids to User records together with a
counter `next`; Create inserts under the current counter and increments
it, Get/List read, Delete removes.  Machine integers are modelled as
unbounded Int (the claims live at the level of the store semantics; the
counter only ever advances by one per create).  The Go map is modelled
as an association list; map iteration order is unspecified in Go, and
the claims about List only concern its contents, so the association
list order stands in for one admissible iteration order.
-/

namespace Quickserve

/-- User mirrors Go struct User with fields ID, Name, Email. -/
structure User where
  ID : Int
  Name : String
  Email : String
deriving DecidableEq, Repr

/-- UserStore mirrors Go struct UserStore: the users map (as an
association list) and the next counter.  The sync.RWMutex serializes
the operations; the embedding therefore gives each operation as one
atomic state transformation. -/
structure UserStore where
  users : List (Int × User)
  next : Int
deriving DecidableEq, Repr

/-- NewUserStore: empty map, counter starts at 1. -/
def NewUserStore : UserStore :=
  { users := [], next := 1 }

/-- Go map assignment m[k] = v: overwrite the binding if the key is
present, otherwise add a new binding. -/
def mapInsert (m : List (Int × User)) (k : Int) (v : User) : List (Int × User) :=
  if m.any (fun p => p.1 == k) then
    m.map (fun p => if p.1 == k then (k, v) else p)
  else
    m ++ [(k, v)]

/-- UserStore.Create: build the record with ID = next, store it under
that key, increment next, return the record (Go lines 35-47). -/
def UserStore.Create (s : UserStore) (name email : String) : User × UserStore :=
  let user : User := { ID := s.next, Name := name, Email := email }
  (user, { users := mapInsert s.users s.next user, next := s.next + 1 })

/-- UserStore.Get: map lookup, comma-ok idiom becomes Option
(Go lines 50-56). -/
def UserStore.Get (s : UserStore) (id : Int) : Option User :=
  (s.users.find? (fun p => p.1 == id)).map Prod.snd

/-- UserStore.List: all stored records, in map iteration order
(Go lines 59-68). -/
def UserStore.List (s : UserStore) : List User :=
  s.users.map Prod.snd

/-- UserStore.Delete: if the key is present remove it and return true,
otherwise return false (Go lines 71-80). -/
def UserStore.Delete (s : UserStore) (id : Int) : Bool × UserStore :=
  if s.users.any (fun p => p.1 == id) then
    (true, { s with users := s.users.filter (fun p => p.1 != id) })
  else
    (false, s)

/-- One store operation, as invoked by the four handlers. -/
inductive Op where
  | create (name email : String)
  | get (id : Int)
  | listAll
  | delete (id : Int)
deriving DecidableEq, Repr

/-- State effect of one operation: Get and List read only, Create and
Delete update the store. -/
def exec (s : UserStore) (op : Op) : UserStore :=
  match op with
  | .create n e => (s.Create n e).2
  | .get _ => s
  | .listAll => s
  | .delete i => (s.Delete i).2

/-- Run a sequence of operations from a given store. -/
def runFrom (s : UserStore) (ops : List Op) : UserStore :=
  ops.foldl exec s

/-- Run a sequence of operations from a fresh store. -/
def run (ops : List Op) : UserStore :=
  runFrom NewUserStore ops

/-- The ids returned by the create calls of a run, in call order. -/
def issuedFrom (s : UserStore) (ops : List Op) : List Int :=
  match ops with
  | [] => []
  | op :: rest =>
    match op with
    | .create n e => (s.Create n e).1.ID :: issuedFrom (exec s op) rest
    | _ => issuedFrom (exec s op) rest

/-- Number of create operations in a sequence (creates always succeed). -/
def createCount (ops : List Op) : Nat :=
  (ops.filter (fun op => match op with | .create _ _ => true | _ => false)).length

/-- Number of delete operations of a run that return true. -/
def deletesOkFrom (s : UserStore) (ops : List Op) : Nat :=
  match ops with
  | [] => 0
  | op :: rest =>
    (match op with
     | .delete i => if (s.Delete i).1 then 1 else 0
     | _ => 0) + deletesOkFrom (exec s op) rest

/-- strconv.Atoi: optional sign, then at least one decimal digit, value
within the 64-bit int range; anything else is an error (None). -/
def digitsToNat (cs : List Char) : Option Nat :=
  cs.foldl
    (fun acc c =>
      acc.bind (fun n => if c.isDigit then some (10 * n + (c.toNat - 48)) else none))
    (some 0)

/-- Atoi models strconv.Atoi for base 10 on 64-bit int: an optional
leading + or - followed by one or more digits, rejected when out of
the int64 range. -/
def Atoi (str : String) : Option Int :=
  let cs := str.toList
  let signed : Bool × List Char :=
    match cs with
    | '-' :: rest => (true, rest)
    | '+' :: rest => (false, rest)
    | _ => (false, cs)
  match signed.2 with
  | [] => none
  | _ =>
    match digitsToNat signed.2 with
    | none => none
    | some n =>
      if signed.1 then
        if (n : Int) ≤ 2 ^ 63 then some (-(n : Int)) else none
      else
        if (n : Int) < 2 ^ 63 then some (n : Int) else none

/-- HTTP response of the two path-id handlers: a status code and an
optional JSON-encoded record body. -/
structure Response where
  status : Nat
  body : Option User
deriving DecidableEq, Repr

/-- HandleGetUser (Go lines 103-119): 400 when the path id does not
parse, 404 when absent, otherwise 200 with the record. -/
def HandleGetUser (s : UserStore) (idStr : String) : Response :=
  match Atoi idStr with
  | none => { status := 400, body := none }
  | some id =>
    match s.Get id with
    | none => { status := 404, body := none }
    | some u => { status := 200, body := some u }

/-- HandleDeleteUser (Go lines 141-155): 400 when the path id does not
parse (the store is not touched), 404 when Delete returns false,
otherwise 204 with an empty body.  The resulting store state is
returned alongside the response. -/
def HandleDeleteUser (s : UserStore) (idStr : String) : Response × UserStore :=
  match Atoi idStr with
  | none => ({ status := 400, body := none }, s)
  | some id =>
    let r := s.Delete id
    if r.1 then ({ status := 204, body := none }, r.2)
    else ({ status := 404, body := none }, r.2)

/-- Well-formedness of a store: the counter is at least 1, every key
lies in [1, next), every record carries its key in its ID field, and
keys are distinct.  This holds for every store reachable from
NewUserStore. -/
def KeysOk (s : UserStore) : Prop :=
  1 ≤ s.next ∧
  (∀ p ∈ s.users, 1 ≤ p.1 ∧ p.1 < s.next ∧ p.2.ID = p.1) ∧
  s.users.Pairwise (fun a b => a.1 ≠ b.1)

/-- Recognizer for create operations. -/
def isCreate : Op → Bool
  | .create _ _ => true
  | _ => false

theorem runFrom_cons (s : UserStore) (op : Op) (rest : List Op) :
    runFrom s (op :: rest) = runFrom (exec s op) rest := rfl

theorem mapInsert_append (m : List (Int × User)) (k : Int) (v : User)
    (h : ∀ p ∈ m, p.1 ≠ k) : mapInsert m k v = m ++ [(k, v)] := by
  have hany : m.any (fun p => p.1 == k) = false := by
    simp only [List.any_eq_false, beq_iff_eq]
    exact h
  simp [mapInsert, hany]

theorem keysOk_new : KeysOk NewUserStore := by
  refine ⟨by simp [NewUserStore], ?_, by simp [NewUserStore]⟩
  intro p hp
  simp [NewUserStore] at hp

theorem create_users_eq (s : UserStore) (n e : String)
    (hk : ∀ p ∈ s.users, p.1 ≠ s.next) :
    (s.Create n e).2.users = s.users ++ [(s.next, (s.Create n e).1)] := by
  simp [UserStore.Create, mapInsert_append s.users s.next _ hk]

theorem keysOk_create (s : UserStore) (n e : String) (h : KeysOk s) :
    KeysOk (s.Create n e).2 := by
  obtain ⟨h1, hb, hd⟩ := h
  have hk : ∀ p ∈ s.users, p.1 ≠ s.next := fun p hp => ne_of_lt (hb p hp).2.1
  have hnext : (s.Create n e).2.next = s.next + 1 := rfl
  refine ⟨by rw [hnext]; omega, ?_, ?_⟩
  · intro p hp
    rw [create_users_eq s n e hk] at hp
    rw [List.mem_append, List.mem_singleton] at hp
    rcases hp with hp | hp
    · obtain ⟨ha, hb2, hc⟩ := hb p hp
      exact ⟨ha, by rw [hnext]; omega, hc⟩
    · subst hp
      exact ⟨h1, by rw [hnext]; exact lt_add_one _, rfl⟩
  · rw [create_users_eq s n e hk, List.pairwise_append]
    refine ⟨hd, by simp, ?_⟩
    intro a ha b hb'
    rw [List.mem_singleton] at hb'
    subst hb'
    exact hk a ha

theorem delete_next (s : UserStore) (i : Int) : (s.Delete i).2.next = s.next := by
  unfold UserStore.Delete
  split <;> rfl

theorem keysOk_delete (s : UserStore) (i : Int) (h : KeysOk s) :
    KeysOk (s.Delete i).2 := by
  obtain ⟨h1, hb, hd⟩ := h
  unfold UserStore.Delete
  split
  · refine ⟨h1, ?_, hd.filter _⟩
    intro p hp
    exact hb p (List.mem_of_mem_filter hp)
  · exact ⟨h1, hb, hd⟩

theorem keysOk_exec (s : UserStore) (op : Op) (h : KeysOk s) : KeysOk (exec s op) := by
  cases op with
  | create n e => exact keysOk_create s n e h
  | get i => exact h
  | listAll => exact h
  | delete i => exact keysOk_delete s i h

theorem keysOk_runFrom (ops : List Op) (s : UserStore) (h : KeysOk s) :
    KeysOk (runFrom s ops) := by
  induction ops generalizing s with
  | nil => exact h
  | cons op rest ih => exact ih (exec s op) (keysOk_exec s op h)

theorem next_exec (s : UserStore) (op : Op) : s.next ≤ (exec s op).next := by
  cases op with
  | create n e => exact le_of_lt (lt_add_one s.next)
  | get i => exact le_refl _
  | listAll => exact le_refl _
  | delete i => rw [show exec s (.delete i) = (s.Delete i).2 from rfl, delete_next]

theorem next_runFrom (ops : List Op) (s : UserStore) :
    s.next ≤ (runFrom s ops).next := by
  induction ops generalizing s with
  | nil => exact le_refl _
  | cons op rest ih => exact le_trans (next_exec s op) (ih (exec s op))

theorem issuedFrom_bounds (ops : List Op) (s : UserStore) :
    ∀ i ∈ issuedFrom s ops, s.next ≤ i ∧ i < (runFrom s ops).next := by
  induction ops generalizing s with
  | nil =>
    intro i hi
    simp [issuedFrom] at hi
  | cons op rest ih =>
    intro i hi
    rw [runFrom_cons]
    cases op with
    | create n e =>
      rw [show issuedFrom s (.create n e :: rest)
            = s.next :: issuedFrom (exec s (.create n e)) rest from rfl,
        List.mem_cons] at hi
      have hx : (exec s (.create n e)).next = s.next + 1 := rfl
      rcases hi with rfl | hi
      · refine ⟨le_refl _, lt_of_lt_of_le ?_ (next_runFrom rest _)⟩
        rw [hx]
        exact lt_add_one _
      · obtain ⟨hlo, hhi⟩ := ih (exec s (.create n e)) i hi
        rw [hx] at hlo
        exact ⟨by omega, hhi⟩
    | get j => exact ih s i hi
    | listAll => exact ih s i hi
    | delete j =>
      obtain ⟨hlo, hhi⟩ := ih (exec s (.delete j)) i hi
      have hx : (exec s (.delete j)).next = s.next := delete_next s j
      rw [hx] at hlo
      exact ⟨hlo, hhi⟩

theorem issuedFrom_pairwise (ops : List Op) (s : UserStore) :
    (issuedFrom s ops).Pairwise (· < ·) := by
  induction ops generalizing s with
  | nil => simp [issuedFrom]
  | cons op rest ih =>
    cases op with
    | create n e =>
      rw [show issuedFrom s (.create n e :: rest)
            = s.next :: issuedFrom (exec s (.create n e)) rest from rfl,
        List.pairwise_cons]
      refine ⟨?_, ih (exec s (.create n e))⟩
      intro j hj
      have := (issuedFrom_bounds rest (exec s (.create n e)) j hj).1
      have hx : (exec s (.create n e)).next = s.next + 1 := rfl
      rw [hx] at this
      omega
    | get j => exact ih s
    | listAll => exact ih s
    | delete j => exact ih (exec s (.delete j))

theorem any_eq_find_isSome (l : List (Int × User)) (p : Int × User → Bool) :
    l.any p = (l.find? p).isSome := by
  induction l with
  | nil => rfl
  | cons a rest ih =>
    by_cases h : p a = true
    · simp [List.any_cons, h, List.find?_cons_of_pos _ h]
    · rw [List.any_cons, List.find?_cons_of_neg _ (by simpa using h), ← ih]
      simp [h]

theorem get_eq_none_iff (s : UserStore) (id : Int) :
    s.Get id = none ↔ ∀ p ∈ s.users, p.1 ≠ id := by
  simp [UserStore.Get, List.find?_eq_none]

theorem get_isSome_iff (s : UserStore) (id : Int) :
    (s.Get id).isSome = true ↔ ∃ u, (id, u) ∈ s.users := by
  simp only [UserStore.Get, Option.isSome_map', List.find?_isSome, beq_iff_eq]
  constructor
  · rintro ⟨⟨k, u⟩, hm, hk⟩
    simp only at hk
    subst hk
    exact ⟨u, hm⟩
  · rintro ⟨u, hm⟩
    exact ⟨(id, u), hm, rfl⟩

theorem find_of_mem_unique (l : List (Int × User)) (k : Int) (u : User)
    (hd : l.Pairwise (fun a b => a.1 ≠ b.1)) (hm : (k, u) ∈ l) :
    l.find? (fun p => p.1 == k) = some (k, u) := by
  induction l with
  | nil => simp at hm
  | cons a rest ih =>
    rw [List.pairwise_cons] at hd
    rcases List.mem_cons.mp hm with rfl | hm'
    · exact List.find?_cons_of_pos _ (by simp)
    · have hak : a.1 ≠ k := by
        have := hd.1 (k, u) hm'
        simpa using this
      rw [List.find?_cons_of_neg _ (by simpa using hak)]
      exact ih hd.2 hm'

theorem delete_fst (s : UserStore) (id : Int) :
    (s.Delete id).1 = (s.Get id).isSome := by
  unfold UserStore.Delete
  rw [any_eq_find_isSome s.users (fun p => p.1 == id)]
  unfold UserStore.Get
  rw [Option.isSome_map']
  split
  · next h => exact h.symm
  · next h =>
    rw [Bool.not_eq_true] at h
    exact h.symm

theorem delete_get_none (s : UserStore) (id : Int) :
    (s.Delete id).2.Get id = none := by
  unfold UserStore.Delete
  split
  · next h =>
    rw [show ({ s with users := s.users.filter (fun p => p.1 != id) },
        (true, { s with users := s.users.filter (fun p => p.1 != id) }).2).2
        = ({ s with users := s.users.filter (fun p => p.1 != id) } : UserStore)
      from rfl]
    rw [get_eq_none_iff]
    intro p hp
    have := List.of_mem_filter hp
    simpa using this
  · next h =>
    rw [get_eq_none_iff]
    intro p hp
    rw [Bool.not_eq_true, List.any_eq_false] at h
    have := h p hp
    simpa using this

theorem delete_of_get_none (s : UserStore) (id : Int) (h : s.Get id = none) :
    s.Delete id = (false, s) := by
  unfold UserStore.Delete
  rw [if_neg]
  rw [any_eq_find_isSome]
  unfold UserStore.Get at h
  rw [Option.map_eq_none'] at h
  simp [h]

theorem find_overwrite (m : List (Int × User)) (k : Int) (v : User)
    (h : m.any (fun p => p.1 == k) = true) :
    (m.map (fun p => if p.1 == k then (k, v) else p)).find? (fun p => p.1 == k)
      = some (k, v) := by
  induction m with
  | nil => simp at h
  | cons a rest ih =>
    by_cases ha : a.1 = k
    · rw [List.map_cons, if_pos (by simpa using ha)]
      exact List.find?_cons_of_pos _ (by simp)
    · rw [List.map_cons, if_neg (by simpa using ha),
        List.find?_cons_of_neg _ (by simpa using ha)]
      rw [List.any_cons] at h
      have h2 : rest.any (fun p => p.1 == k) = true := by
        rcases Bool.or_eq_true_iff.mp h with h' | h'
        · exact absurd (by simpa using h') ha
        · exact h'
      exact ih h2

theorem find_append_last (m : List (Int × User)) (k : Int) (v : User)
    (h : m.any (fun p => p.1 == k) = false) :
    (m ++ [(k, v)]).find? (fun p => p.1 == k) = some (k, v) := by
  induction m with
  | nil => exact List.find?_cons_of_pos _ (by simp)
  | cons a rest ih =>
    rw [List.any_cons, Bool.or_eq_false_iff] at h
    rw [List.cons_append, List.find?_cons_of_neg _ (by simp [h.1])]
    exact ih h.2

theorem create_stores (s : UserStore) (n e : String) :
    (s.Create n e).2.Get s.next = some (s.Create n e).1 := by
  show (UserStore.Get
    { users := mapInsert s.users s.next (s.Create n e).1, next := s.next + 1 } s.next)
    = some (s.Create n e).1
  unfold UserStore.Get
  unfold mapInsert
  split
  · next h =>
    rw [find_overwrite s.users s.next (s.Create n e).1 h]
    rfl
  · next h =>
    rw [find_append_last s.users s.next (s.Create n e).1 (by
      rw [Bool.not_eq_true] at h
      exact h)]
    rfl

theorem filter_length_of_any (m : List (Int × User)) (i : Int)
    (hd : m.Pairwise (fun a b => a.1 ≠ b.1))
    (hm : m.any (fun p => p.1 == i) = true) :
    (m.filter (fun p => p.1 != i)).length + 1 = m.length := by
  induction m with
  | nil => simp at hm
  | cons q rest ih =>
    rw [List.pairwise_cons] at hd
    by_cases hq : q.1 = i
    · have hrest : rest.filter (fun p => p.1 != i) = rest := by
        rw [List.filter_eq_self]
        intro p hp
        have : q.1 ≠ p.1 := hd.1 p hp
        simp only [bne_iff_ne]
        omega
      rw [List.filter_cons_of_neg (by simpa using hq), hrest]
      simp
    · rw [List.any_cons] at hm
      have h2 : rest.any (fun p => p.1 == i) = true := by
        rcases Bool.or_eq_true_iff.mp hm with h' | h'
        · exact absurd (by simpa using h') hq
        · exact h'
      rw [List.filter_cons_of_pos (by simpa using hq)]
      rw [List.length_cons, List.length_cons, ih hd.2 h2]

theorem delete_length (s : UserStore) (i : Int) (h : KeysOk s) :
    (s.Delete i).2.users.length + (if (s.Delete i).1 then 1 else 0)
      = s.users.length := by
  obtain ⟨-, -, hd⟩ := h
  unfold UserStore.Delete
  split
  · next hm =>
    simp only [if_pos]
    exact filter_length_of_any s.users i hd hm
  · simp

theorem create_users_length (s : UserStore) (n e : String) (h : KeysOk s) :
    (s.Create n e).2.users.length = s.users.length + 1 := by
  obtain ⟨-, hb, -⟩ := h
  have hk : ∀ p ∈ s.users, p.1 ≠ s.next := fun p hp => ne_of_lt (hb p hp).2.1
  rw [create_users_eq s n e hk]
  simp

theorem length_runFrom (ops : List Op) (s : UserStore) (h : KeysOk s) :
    (runFrom s ops).users.length + deletesOkFrom s ops
      = s.users.length + createCount ops := by
  induction ops generalizing s with
  | nil => simp [runFrom, deletesOkFrom, createCount]
  | cons op rest ih =>
    have h' := keysOk_exec s op h
    have hih := ih (exec s op) h'
    rw [runFrom_cons]
    cases op with
    | create n e =>
      have hc : createCount (Op.create n e :: rest) = createCount rest + 1 := by
        simp [createCount, List.filter_cons]
      have hdel : deletesOkFrom s (Op.create n e :: rest)
          = deletesOkFrom (exec s (.create n e)) rest := by
        rw [show deletesOkFrom s (Op.create n e :: rest)
          = 0 + deletesOkFrom (exec s (.create n e)) rest from rfl]
        omega
      have hlen : (exec s (.create n e)).users.length = s.users.length + 1 :=
        create_users_length s n e h
      rw [hc, hdel]
      rw [hlen] at hih
      omega
    | get j =>
      have hc : createCount (Op.get j :: rest) = createCount rest := by
        simp [createCount, List.filter_cons]
      have hx : exec s (.get j) = s := rfl
      rw [hc, show deletesOkFrom s (Op.get j :: rest)
        = 0 + deletesOkFrom (exec s (.get j)) rest from rfl]
      rw [hx] at hih ⊢
      omega
    | listAll =>
      have hc : createCount (Op.listAll :: rest) = createCount rest := by
        simp [createCount, List.filter_cons]
      have hx : exec s .listAll = s := rfl
      rw [hc, show deletesOkFrom s (Op.listAll :: rest)
        = 0 + deletesOkFrom (exec s .listAll) rest from rfl]
      rw [hx] at hih ⊢
      omega
    | delete j =>
      have hc : createCount (Op.delete j :: rest) = createCount rest := by
        simp [createCount, List.filter_cons]
      have hdel : deletesOkFrom s (Op.delete j :: rest)
          = (if (s.Delete j).1 then 1 else 0)
            + deletesOkFrom (exec s (.delete j)) rest := rfl
      have hlen := delete_length s j h
      rw [hc, hdel]
      rw [show (exec s (.delete j)).users = (s.Delete j).2.users from rfl] at hih
      omega

theorem all_creates_issued (ops : List Op) (s : UserStore)
    (h : ∀ op ∈ ops, isCreate op = true) :
    issuedFrom s ops = (List.range ops.length).map (fun i : Nat => s.next + (i : Int)) := by
  induction ops generalizing s with
  | nil => simp [issuedFrom]
  | cons op rest ih =>
    cases op with
    | create n e =>
      have hrest : ∀ op ∈ rest, isCreate op = true :=
        fun op hop => h op (List.mem_cons_of_mem _ hop)
      have hx : (exec s (.create n e)).next = s.next + 1 := rfl
      rw [show issuedFrom s (.create n e :: rest)
            = s.next :: issuedFrom (exec s (.create n e)) rest from rfl,
        ih (exec s (.create n e)) hrest, hx]
      rw [List.length_cons, List.range_succ_eq_map, List.map_cons, List.map_map]
      refine congrArg₂ List.cons (by simp) ?_
      refine List.map_congr_left ?_
      intro a ha
      simp only [Function.comp_apply]
      push_cast
      ring
    | get j => exact absurd (h _ (List.mem_cons_self _ _)) (by simp [isCreate])
    | listAll => exact absurd (h _ (List.mem_cons_self _ _)) (by simp [isCreate])
    | delete j => exact absurd (h _ (List.mem_cons_self _ _)) (by simp [isCreate])

theorem all_creates_length (ops : List Op) (s : UserStore)
    (h : ∀ op ∈ ops, isCreate op = true) (hk : KeysOk s) :
    (runFrom s ops).users.length = s.users.length + ops.length := by
  induction ops generalizing s with
  | nil => simp [runFrom]
  | cons op rest ih =>
    cases op with
    | create n e =>
      have hrest : ∀ op ∈ rest, isCreate op = true :=
        fun op hop => h op (List.mem_cons_of_mem _ hop)
      rw [runFrom_cons, ih (exec s (.create n e)) hrest (keysOk_exec s _ hk),
        show (exec s (.create n e)).users = (s.Create n e).2.users from rfl,
        create_users_length s n e hk]
      simp
      omega
    | get j => exact absurd (h _ (List.mem_cons_self _ _)) (by simp [isCreate])
    | listAll => exact absurd (h _ (List.mem_cons_self _ _)) (by simp [isCreate])
    | delete j => exact absurd (h _ (List.mem_cons_self _ _)) (by simp [isCreate])

/-- Claim C1: for every store state and every name and email,
Create(name, email) succeeds, returns a record whose ID equals the
current next counter and whose Name and Email equal the arguments,
stores that record in the mapping under that id, and advances next by
exactly 1. -/
theorem C1_create_correct (s : UserStore) (name email : String) :
    (s.Create name email).1 = { ID := s.next, Name := name, Email := email } ∧
    (s.Create name email).2.Get s.next = some (s.Create name email).1 ∧
    (s.Create name email).2.next = s.next + 1 :=
  ⟨rfl, create_stores s name email, rfl⟩

/-- Claim C2: over every sequence of store operations starting from a
fresh store, the ids returned by the create calls are strictly
increasing (hence unique and never reassigned, also after a delete),
and next stays strictly greater than every id ever issued. -/
theorem C2_issued_ids (ops : List Op) :
    (issuedFrom NewUserStore ops).Pairwise (· < ·) ∧
    (issuedFrom NewUserStore ops).Nodup ∧
    (∀ i ∈ issuedFrom NewUserStore ops, i < (run ops).next) := by
  refine ⟨issuedFrom_pairwise ops NewUserStore, ?_, ?_⟩
  · exact (issuedFrom_pairwise ops NewUserStore).imp ne_of_lt
  · intro i hi
    exact (issuedFrom_bounds ops NewUserStore i hi).2

/-- Witness for C2 at a concrete run of two creates and a delete. -/
theorem C2_issued_ids_witness :
    (1 : Int) ∈ issuedFrom NewUserStore
      [Op.create "a" "a@x", Op.delete 1, Op.create "b" "b@x"] ∧
    (1 : Int) < (run [Op.create "a" "a@x", Op.delete 1, Op.create "b" "b@x"]).next :=
  ⟨by decide, (C2_issued_ids [Op.create "a" "a@x", Op.delete 1, Op.create "b" "b@x"]).2.2
    1 (by decide)⟩

/-- Claim C3: Delete(id) returns true exactly when a record with that
id is present (and false otherwise), after Delete(id) the id is absent,
and a second Delete of the same id returns false (true-then-false
idempotence). -/
theorem C3_delete_correct (s : UserStore) (id : Int) :
    (s.Delete id).1 = (s.Get id).isSome ∧
    (s.Delete id).2.Get id = none ∧
    ((s.Delete id).2.Delete id).1 = false := by
  refine ⟨delete_fst s id, delete_get_none s id, ?_⟩
  rw [delete_fst, delete_get_none]
  rfl

/-- Claim C4: Get(id) returns the stored record exactly when a record
with that id is present and signals absence (none) otherwise, and Get
leaves the store state unchanged (it is a pure read: exec of a get
operation is the identity on the store). -/
theorem C4_get_correct (s : UserStore) (id : Int) :
    ((s.Get id).isSome = true ↔ ∃ u, (id, u) ∈ s.users) ∧
    (∀ u, s.Get id = some u → (id, u) ∈ s.users) ∧
    (KeysOk s → ∀ u, (id, u) ∈ s.users → s.Get id = some u) ∧
    exec s (.get id) = s := by
  refine ⟨get_isSome_iff s id, ?_, ?_, rfl⟩
  · intro u hu
    unfold UserStore.Get at hu
    rw [Option.map_eq_some'] at hu
    obtain ⟨p, hp, hsnd⟩ := hu
    have hmem := List.mem_of_find?_eq_some hp
    have hkey : p.1 = id := by
      have := List.find?_some hp
      simpa using this
    subst hsnd
    rw [show (id, p.2) = p from by rw [← hkey]] at *
    exact hmem
  · intro hk u hmem
    unfold UserStore.Get
    rw [find_of_mem_unique s.users id u hk.2.2 hmem]
    rfl

/-- Witness for C4 at a concrete one-record store. -/
theorem C4_get_correct_witness :
    ((run [Op.create "a" "a@x"]).Get 1 = some { ID := 1, Name := "a", Email := "a@x" }) ∧
    ((1, ({ ID := 1, Name := "a", Email := "a@x" } : User))
      ∈ (run [Op.create "a" "a@x"]).users) := by
  refine ⟨?_, by decide⟩
  exact (C4_get_correct (run [Op.create "a" "a@x"]) 1).2.2.1
    (keysOk_runFrom [Op.create "a" "a@x"] NewUserStore keysOk_new)
    { ID := 1, Name := "a", Email := "a@x" } (by decide)

/-- Claim C5: a Get of the id returned by a Create, performed on the
store state produced by that Create, returns the very record the
Create returned. -/
theorem C5_get_after_create (s : UserStore) (name email : String) :
    (s.Create name email).2.Get (s.Create name email).1.ID
      = some (s.Create name email).1 :=
  create_stores s name email

/-- Claim C6: after any sequence of operations from a fresh store,
List returns exactly the records currently in the mapping (a record is
in the returned sequence iff it is stored under some key), and its
length equals the number of successful creates minus the number of
successful deletes. -/
theorem C6_list_snapshot (ops : List Op) :
    (∀ u, u ∈ (run ops).List ↔ ∃ k, (k, u) ∈ (run ops).users) ∧
    (run ops).List.length = createCount ops - deletesOkFrom NewUserStore ops := by
  constructor
  · intro u
    constructor
    · intro hu
      obtain ⟨⟨k, v⟩, hp, hpu⟩ := List.mem_map.mp hu
      subst hpu
      exact ⟨k, hp⟩
    · rintro ⟨k, hm⟩
      exact List.mem_map.mpr ⟨(k, u), hm, rfl⟩
  · have h := length_runFrom ops NewUserStore keysOk_new
    have hz : (NewUserStore.users).length = 0 := rfl
    rw [hz] at h
    have hl : (run ops).List.length = (runFrom NewUserStore ops).users.length := by
      simp [UserStore.List, run]
    rw [hl]
    omega

/-- Claim C7: for GET and DELETE on /users with a path id, a
non-integer id yields status 400 with the store untouched; a parsed id
that is absent yields status 404; a successful DELETE yields status
204 with an empty body. -/
theorem C7_handlers (s : UserStore) (idStr : String) :
    (Atoi idStr = none →
      HandleGetUser s idStr = { status := 400, body := none } ∧
      HandleDeleteUser s idStr = ({ status := 400, body := none }, s)) ∧
    (∀ id, Atoi idStr = some id → s.Get id = none →
      HandleGetUser s idStr = { status := 404, body := none } ∧
      HandleDeleteUser s idStr = ({ status := 404, body := none }, s)) ∧
    (∀ id, Atoi idStr = some id → (s.Get id).isSome = true →
      HandleDeleteUser s idStr = ({ status := 204, body := none }, (s.Delete id).2)) := by
  refine ⟨?_, ?_, ?_⟩
  · intro h
    unfold HandleGetUser HandleDeleteUser
    rw [h]
    exact ⟨rfl, rfl⟩
  · intro id h hget
    have hdel : s.Delete id = (false, s) := delete_of_get_none s id hget
    simp [HandleGetUser, HandleDeleteUser, h, hget, hdel]
  · intro id h hget
    have hfst : (s.Delete id).1 = true := by rw [delete_fst, hget]
    simp only [HandleDeleteUser, h, hfst, if_true]

/-- Witness for C7: a malformed id, an absent id, and a present id,
each at a concrete store. -/
theorem C7_handlers_witness :
    (HandleGetUser NewUserStore "abc" = { status := 400, body := none } ∧
      HandleDeleteUser NewUserStore "abc" = ({ status := 400, body := none }, NewUserStore)) ∧
    (HandleGetUser NewUserStore "7" = { status := 404, body := none } ∧
      HandleDeleteUser NewUserStore "7" = ({ status := 404, body := none }, NewUserStore)) ∧
    HandleDeleteUser (run [Op.create "a" "a@x"]) "1"
      = ({ status := 204, body := none }, ((run [Op.create "a" "a@x"]).Delete 1).2) := by
  refine ⟨?_, ?_, ?_⟩
  · exact (C7_handlers NewUserStore "abc").1 (by decide)
  · exact (C7_handlers NewUserStore "7").2.1 7 (by decide) (by decide)
  · exact (C7_handlers (run [Op.create "a" "a@x"]) "1").2.2 1 (by decide) (by decide)

/-- Claim C8: any interleaving of N create calls on a fresh store (the
mutex makes each create atomic, so interleavings are exactly the
sequential orders) issues precisely the ids 1..N, all distinct, and a
List afterwards has length N. -/
theorem C8_concurrent_creates (ops : List Op)
    (h : ∀ op ∈ ops, ∃ n e, op = Op.create n e) :
    issuedFrom NewUserStore ops
      = (List.range ops.length).map (fun i : Nat => 1 + (i : Int)) ∧
    (issuedFrom NewUserStore ops).Nodup ∧
    (run ops).List.length = ops.length := by
  have hc : ∀ op ∈ ops, isCreate op = true := by
    intro op hop
    obtain ⟨n, e, rfl⟩ := h op hop
    rfl
  have hissued := all_creates_issued ops NewUserStore hc
  refine ⟨hissued, ?_, ?_⟩
  · rw [hissued]
    refine List.Nodup.map ?_ (List.nodup_range _)
    intro a b hab
    simpa using hab
  · rw [show (run ops).List.length = (run ops).users.length from by
      simp [UserStore.List]]
    rw [show run ops = runFrom NewUserStore ops from rfl,
      all_creates_length ops NewUserStore hc keysOk_new]
    simp [NewUserStore]

/-- Witness for C8 at three concrete concurrent creates. -/
theorem C8_concurrent_creates_witness :
    issuedFrom NewUserStore [Op.create "a" "a@x", Op.create "b" "b@x", Op.create "c" "c@x"]
      = (List.range 3).map (fun i : Nat => 1 + (i : Int)) ∧
    (run [Op.create "a" "a@x", Op.create "b" "b@x", Op.create "c" "c@x"]).List.length = 3 := by
  have h := C8_concurrent_creates
    [Op.create "a" "a@x", Op.create "b" "b@x", Op.create "c" "c@x"]
    (by
      intro op hop
      simp only [List.mem_cons, List.not_mem_nil, or_false] at hop
      rcases hop with rfl | rfl | rfl
      · exact ⟨"a", "a@x", rfl⟩
      · exact ⟨"b", "b@x", rfl⟩
      · exact ⟨"c", "c@x", rfl⟩)
  exact ⟨h.1, h.2.2⟩

/-- Claim C9: deleting an id that is not present returns false and
leaves the whole store (mapping and counter) unchanged. -/
theorem C9_delete_absent_frame (s : UserStore) (id : Int) (h : s.Get id = none) :
    s.Delete id = (false, s) :=
  delete_of_get_none s id h

/-- Witness for C9 at a concrete absent id. -/
theorem C9_delete_absent_frame_witness :
    NewUserStore.Get 5 = none ∧ NewUserStore.Delete 5 = (false, NewUserStore) :=
  ⟨by decide, C9_delete_absent_frame NewUserStore 5 (by decide)⟩

/-- Claim C10: in every store reachable from a fresh store, every key
of the mapping satisfies 1 <= key < next and the stored record carries
its key in its ID field; consequently Get and Delete on any id <= 0
report not-found and false with the store unchanged. -/
theorem C10_reachable_bounds (ops : List Op) :
    (∀ p ∈ (run ops).users, 1 ≤ p.1 ∧ p.1 < (run ops).next ∧ p.2.ID = p.1) ∧
    (∀ id : Int, id ≤ 0 →
      (run ops).Get id = none ∧ (run ops).Delete id = (false, run ops)) := by
  have hk := keysOk_runFrom ops NewUserStore keysOk_new
  refine ⟨hk.2.1, ?_⟩
  intro id hid
  have hget : (run ops).Get id = none := by
    rw [get_eq_none_iff]
    intro p hp
    have := hk.2.1 p hp
    omega
  exact ⟨hget, delete_of_get_none (run ops) id hget⟩

/-- Witness for C10 at a concrete run and a nonpositive id. -/
theorem C10_reachable_bounds_witness :
    ((1 : Int) ≤ 1 ∧ (1 : Int) < (run [Op.create "a" "a@x"]).next ∧
      (User.mk 1 "a" "a@x").ID = 1) ∧
    ((run [Op.create "a" "a@x"]).Get 0 = none ∧
      (run [Op.create "a" "a@x"]).Delete 0 = (false, run [Op.create "a" "a@x"])) := by
  constructor
  · exact (C10_reachable_bounds [Op.create "a" "a@x"]).1
      (1, User.mk 1 "a" "a@x") (by decide)
  · exact (C10_reachable_bounds [Op.create "a" "a@x"]).2 0 (by decide)

end Quickserve
